import Mathlib

/-!
Verification development for the python_rag_server subsystem of the
estimateapp repository.  The Python sources are shallowly embedded:
pure string manipulation becomes Lean functions on `String`/`List Char`,
the stateful vector stores become explicit state-passing functions, and
external libraries (tiktoken, sentence-transformers, codecs, numpy)
appear as function parameters of the embedded operations.
-/

namespace RagSpec

/-! ## Python string primitives (document_processor.py helpers)

We model the ASCII core of Python whitespace semantics: the characters
matched by the regex class backslash-s and stripped by str.strip.
-/

/-- The ASCII whitespace characters recognised by Python's regex class
backslash-s and by str.strip (space, tab, newline, carriage return,
form feed, vertical tab). -/
def pyWs (c : Char) : Bool :=
  c = ' ' || c = '\t' || c = '\n' || c = '\r' || c = '\x0c' || c = '\x0b'

/-- Python str.strip on a character list: drop ASCII whitespace from
both ends. -/
def pyStripList (l : List Char) : List Char :=
  ((l.dropWhile pyWs).reverse.dropWhile pyWs).reverse

/-- Python str.strip. -/
def pyStrip (s : String) : String :=
  String.mk (pyStripList s.data)

/-- Helper for Python str.split with no argument: accumulate the current
word (reversed) while scanning. -/
def pySplitAux : List Char → List Char → List String
  | [], acc => if acc.isEmpty then [] else [String.mk acc.reverse]
  | c :: cs, acc =>
    if pyWs c then
      if acc.isEmpty then pySplitAux cs [] else String.mk acc.reverse :: pySplitAux cs []
    else
      pySplitAux cs (c :: acc)

/-- Python str.split with no argument: split on whitespace runs, never
producing empty words. -/
def pySplit (s : String) : List String :=
  pySplitAux s.data []

/-- Split a character list at every character satisfying `p`, keeping
empty pieces.  `re.split` with a one-character-class pattern; splitting
on a `+`-quantified class differs only by extra empty pieces, which the
callers below filter out, so this is extensionally faithful. -/
def splitOnPred (p : Char → Bool) : List Char → List (List Char)
  | [] => [[]]
  | c :: cs =>
    if p c then [] :: splitOnPred p cs
    else
      match splitOnPred p cs with
      | [] => [[c]]
      | h :: t => (c :: h) :: t

/-- One pass of `re.sub` with pattern backslash-s-plus and replacement
a single space: every maximal whitespace run becomes one space.  The
Boolean flag records whether the previous character was inside a
whitespace run. -/
def collapseWsAux : Bool → List Char → List Char
  | _, [] => []
  | inRun, c :: cs =>
    if pyWs c then
      if inRun then collapseWsAux true cs else ' ' :: collapseWsAux true cs
    else
      c :: collapseWsAux false cs

/-- Index (0-based) of the last newline in a character list, if any. -/
def lastNlIdx (l : List Char) : Option Nat :=
  match l with
  | [] => none
  | c :: cs =>
    match lastNlIdx cs with
    | some k => some (k + 1)
    | none => if c = '\n' then some 0 else none

/-- `re.sub` with pattern newline backslash-s-star newline and
replacement of two newlines, scanning left to right over
non-overlapping matches with greedy-then-backtracking semantics: a
match at a newline extends through the following whitespace run up to
the last newline inside that run.  Fuel-indexed so that the kernel can
evaluate it; the fuel is always at least the list length. -/
def subBlankFuel : Nat → List Char → List Char
  | 0, l => l
  | _ + 1, [] => []
  | fuel + 1, c :: cs =>
    if c = '\n' then
      match lastNlIdx (cs.takeWhile pyWs) with
      | some k => '\n' :: '\n' :: subBlankFuel fuel (cs.drop (k + 1))
      | none => c :: subBlankFuel fuel cs
    else
      c :: subBlankFuel fuel cs

/-- The blank-line-collapsing substitution of `clean_text`. -/
def subBlankList (l : List Char) : List Char :=
  subBlankFuel l.length l

/-! ## DocumentProcessor (document_processor.py)

The tiktoken tokenizer is external; the functions below take
`tok : String → Nat` for the length of `tokenizer.encode`.
-/

/-- `DocumentProcessor.clean_text`: substitute whitespace runs by a
single space, then blank-line runs by one blank line, then strip. -/
def clean_text (s : String) : String :=
  pyStrip (String.mk (subBlankList (collapseWsAux false s.data)))

/-- Sentence boundary characters of `split_into_sentences`. -/
def isSentenceDelim (c : Char) : Bool :=
  c = '.' || c = '!' || c = '?'

/-- `DocumentProcessor.split_into_sentences`: split on sentence
delimiter runs, strip each piece, keep the non-empty ones. -/
def split_into_sentences (text : String) : List String :=
  ((splitOnPred isSentenceDelim text.data).map (fun l => pyStrip (String.mk l))).filter
    (fun s => s ≠ "")

/-- The reversed-scan of `get_overlap_text`: walk the reversed word
list, accumulating words (in original order) while the running token
count stays within `maxT`; stop at the first word that would exceed
it. -/
def overlapTake (tok : String → Nat) (maxT : Nat) : List String → Nat → List String
  | [], _ => []
  | w :: ws, cnt =>
    if maxT < cnt + tok w then []
    else overlapTake tok maxT ws (cnt + tok w) ++ [w]

/-- `DocumentProcessor.get_overlap_text`: the trailing word suffix of
`text` whose token count is at most `maxT`. -/
def get_overlap_text (tok : String → Nat) (text : String) (maxT : Nat) : String :=
  if text = "" ∨ maxT = 0 then ""
  else String.intercalate " " (overlapTake tok maxT (pySplit text).reverse 0)

/-- A chunk dictionary as produced by `create_chunks` (keys id,
content, chunkIndex and the metadata sub-dictionary). -/
structure PyChunk where
  id : String
  content : String
  chunkIndex : Nat
  startChar : Int
  endChar : Int
  tokenCount : Nat
deriving DecidableEq

/-- The loop state of `create_chunks`. -/
structure ChunkState where
  chunks : List PyChunk
  current : String
  curTokens : Nat
  chunkIndex : Nat
  startChar : Int
deriving DecidableEq

/-- One iteration of the sentence loop in `create_chunks`. -/
def chunkStep (tok : String → Nat) (chunkSize overlap : Nat) (st : ChunkState)
    (sentence : String) : ChunkState :=
  let sTok := tok sentence
  if chunkSize < st.curTokens + sTok ∧ st.current ≠ "" then
    let content := pyStrip st.current
    let newChunks :=
      if content ≠ "" then
        st.chunks ++ [{ id := "chunk_" ++ toString st.chunkIndex, content := content,
                        chunkIndex := st.chunkIndex, startChar := st.startChar,
                        endChar := st.startChar + (content.length : Int),
                        tokenCount := st.curTokens }]
      else st.chunks
    let newIndex := if content ≠ "" then st.chunkIndex + 1 else st.chunkIndex
    let ovText := get_overlap_text tok st.current overlap
    let newCurrent := if ovText ≠ "" then ovText ++ " " ++ sentence else sentence
    { chunks := newChunks, current := newCurrent, curTokens := tok newCurrent,
      chunkIndex := newIndex,
      startChar := st.startChar + (content.length : Int) - (ovText.length : Int) }
  else
    { st with
        current := if st.current ≠ "" then st.current ++ " " ++ sentence else sentence,
        curTokens := st.curTokens + sTok }

/-- `DocumentProcessor.create_chunks`: greedy sentence accumulation
with overlap seeding, flushing the final non-empty accumulator. -/
def create_chunks (tok : String → Nat) (chunkSize overlap : Nat) (text : String) :
    List PyChunk :=
  let sentences := split_into_sentences text
  let st := sentences.foldl (chunkStep tok chunkSize overlap)
    { chunks := [], current := "", curTokens := 0, chunkIndex := 0, startChar := 0 }
  if pyStrip st.current ≠ "" then
    st.chunks ++ [{ id := "chunk_" ++ toString st.chunkIndex, content := pyStrip st.current,
                    chunkIndex := st.chunkIndex, startChar := st.startChar,
                    endChar := st.startChar + ((pyStrip st.current).length : Int),
                    tokenCount := st.curTokens }]
  else st.chunks

/-! ### Plain-text extraction (`extract_txt_text`)

Bytes are `Fin 256`.  The utf-8, utf-16 and cp1252 codecs are external
Python library code and are passed as parameters returning `none` on
`UnicodeDecodeError`; latin-1 maps every byte `b` to the code point
`b` and can never fail, so it is modelled exactly. -/

/-- The latin-1 codec: total on arbitrary byte sequences. -/
def decodeLatin1 (b : List (Fin 256)) : Option String :=
  some (String.mk (b.map fun n => Char.ofNat n.val))

/-- The encoding loop of `extract_txt_text`: return the first decoder
that succeeds. -/
def try_decode (ds : List (List (Fin 256) → Option String)) (b : List (Fin 256)) :
    Option String :=
  match ds with
  | [] => none
  | d :: rest =>
    match d b with
    | some t => some t
    | none => try_decode rest b

/-- `DocumentProcessor.extract_txt_text`: try utf-8, utf-16, latin-1,
cp1252 in order; if all fail, decode utf-8 with replacement characters
(`dRep`).  The Boolean records whether that final best-effort branch
ran. -/
def extract_txt_text (dU8 dU16 dCp : List (Fin 256) → Option String)
    (dRep : List (Fin 256) → String) (b : List (Fin 256)) : String × Bool :=
  match try_decode [dU8, dU16, decodeLatin1, dCp] b with
  | some t => (t, false)
  | none => (dRep b, true)

/-! ## Chunk-size analysis (claim C3)

The loop of `create_chunks` recomputes the accumulator token count when
it reseeds with overlap text, so a freshly seeded accumulator (overlap
prefix plus one sentence) can carry a token count above `chunkSize` and
be finalised that way.  The invariant below captures exactly which
chunks may exceed the bound.
-/

/-- A string appended to `b` is nonempty when `b` is. -/
lemma str_append_ne_empty (a b : String) (hb : b ≠ "") : a ++ b ≠ "" := by
  intro h
  apply hb
  have h1 : (a ++ b).length = 0 := by rw [h]; rfl
  rw [String.length_append] at h1
  have h2 : b.data.length = 0 := by
    have hb0 : b.length = 0 := by omega
    exact hb0
  apply String.ext
  simpa using List.length_eq_zero.mp h2

/-- A freshly seeded accumulator string: a single sentence satisfying
`P`, optionally preceded by a nonempty overlap text produced by
`get_overlap_text` from some earlier accumulator. -/
def SeedStr (tok : String → Nat) (ov : Nat) (P : String → Prop) (u : String) : Prop :=
  ∃ s, P s ∧ (u = s ∨
    ∃ t, get_overlap_text tok t ov ≠ "" ∧ u = get_overlap_text tok t ov ++ " " ++ s)

/-- A chunk respects the size bound, or it was finalised directly from
a freshly seeded accumulator whose recomputed token count it records. -/
def goodChunk (tok : String → Nat) (cs ov : Nat) (P : String → Prop) (c : PyChunk) : Prop :=
  c.tokenCount ≤ cs ∨ ∃ u, SeedStr tok ov P u ∧ c.content = pyStrip u ∧ c.tokenCount = tok u

/-- Loop invariant of `create_chunks`: the accumulator token count is
within the bound, or the accumulator is a fresh seed carrying its own
recomputed token count. -/
def chunkInv (tok : String → Nat) (cs ov : Nat) (P : String → Prop) (st : ChunkState) : Prop :=
  (st.current = "" → st.curTokens = 0) ∧
  (st.curTokens ≤ cs ∨ (SeedStr tok ov P st.current ∧ st.curTokens = tok st.current))

/-- `chunkStep` preserves the invariant, and every chunk it emits is
either an old chunk or a good one. -/
lemma chunkStep_inv (tok : String → Nat) (cs ov : Nat) (P : String → Prop)
    (st : ChunkState) (s : String) (hP : P s) (hs : s ≠ "")
    (hinv : chunkInv tok cs ov P st) :
    chunkInv tok cs ov P (chunkStep tok cs ov st s) ∧
    ∀ c ∈ (chunkStep tok cs ov st s).chunks, c ∈ st.chunks ∨ goodChunk tok cs ov P c := by
  unfold chunkStep
  by_cases h : cs < st.curTokens + tok s ∧ st.current ≠ ""
  · rw [if_pos h]
    dsimp only
    constructor
    · by_cases hov : get_overlap_text tok st.current ov = ""
      · rw [if_neg (by simp [hov] : ¬ (get_overlap_text tok st.current ov ≠ ""))]
        exact ⟨fun hc => absurd hc hs, Or.inr ⟨⟨s, hP, Or.inl rfl⟩, rfl⟩⟩
      · rw [if_pos hov]
        exact ⟨fun hc => absurd hc (str_append_ne_empty _ _ hs),
          Or.inr ⟨⟨s, hP, Or.inr ⟨st.current, hov, rfl⟩⟩, rfl⟩⟩
    · intro c hc
      by_cases hcon : pyStrip st.current ≠ ""
      · rw [if_pos hcon] at hc
        rcases List.mem_append.mp hc with hc1 | hc1
        · exact Or.inl hc1
        · right
          have hceq := List.mem_singleton.mp hc1
          rcases hinv.2 with hle | ⟨hseed, htk⟩
          · left; rw [hceq]; exact hle
          · right
            exact ⟨st.current, hseed, by rw [hceq], by rw [hceq]; exact htk⟩
      · rw [if_neg hcon] at hc
        exact Or.inl hc
  · rw [if_neg h]
    refine ⟨?_, fun c hc => Or.inl hc⟩
    by_cases hcur : st.current = ""
    · rw [if_neg (by simp [hcur] : ¬ st.current ≠ "")]
      refine ⟨fun hc => absurd hc hs, Or.inr ⟨⟨s, hP, Or.inl rfl⟩, ?_⟩⟩
      dsimp only
      rw [hinv.1 hcur, Nat.zero_add]
    · rw [if_pos hcur]
      have hle : st.curTokens + tok s ≤ cs := by
        rcases Nat.lt_or_ge cs (st.curTokens + tok s) with hl | hg
        · exact absurd ⟨hl, hcur⟩ h
        · exact hg
      exact ⟨fun hc => absurd hc (str_append_ne_empty _ _ hs), Or.inl hle⟩

/-- The sentence fold preserves the invariant and chunk goodness. -/
lemma chunkFold_inv (tok : String → Nat) (cs ov : Nat) (P : String → Prop) :
    ∀ (l : List String) (st : ChunkState),
    (∀ s ∈ l, P s ∧ s ≠ "") → chunkInv tok cs ov P st →
    chunkInv tok cs ov P (l.foldl (chunkStep tok cs ov) st) ∧
    ∀ c ∈ (l.foldl (chunkStep tok cs ov) st).chunks,
      c ∈ st.chunks ∨ goodChunk tok cs ov P c
  | [], st, _, hinv => ⟨hinv, fun _ hc => Or.inl hc⟩
  | s :: rest, st, hl, hinv => by
    have hhead := hl s (List.mem_cons_self s rest)
    have hstep := chunkStep_inv tok cs ov P st s hhead.1 hhead.2 hinv
    have ih := chunkFold_inv tok cs ov P rest (chunkStep tok cs ov st s)
      (fun x hx => hl x (List.mem_cons_of_mem s hx)) hstep.1
    refine ⟨ih.1, fun c hc => ?_⟩
    rcases ih.2 c hc with hc1 | hc1
    · exact hstep.2 c hc1
    · exact Or.inr hc1

/-- Sentences produced by `split_into_sentences` are nonempty. -/
lemma split_into_sentences_ne_empty (text : String) :
    ∀ s ∈ split_into_sentences text, s ≠ "" := by
  intro s hs
  have := List.mem_filter.mp hs
  simpa using this.2

/-- The claim of C3, instantiated at one tokenizer, size configuration
and text: every chunk's recorded token count is at most `cs`, except a
chunk that is a single sentence of the text whose token count alone
exceeds `cs`. -/
def claimC3At (tok : String → Nat) (cs ov : Nat) (text : String) : Prop :=
  ∀ c ∈ create_chunks tok cs ov text,
    c.tokenCount ≤ cs ∨ (c.content ∈ split_into_sentences text ∧ cs < tok c.content)

/-- A simple concrete tokenizer for counterexamples: one token per
whitespace-separated word. -/
def tokW (s : String) : Nat := (pySplit s).length

/-- Counterexample text for C3: sentences of 10, 8 and 4 tokens. -/
def cexText : String :=
  "a1 a2 a3 a4 a5 a6 a7 a8 a9 a10. b1 b2 b3 b4 b5 b6 b7 b8. c1 c2 c3 c4"

/-- C3, counterexample: with chunk size 10 and overlap 5, the second
chunk of `cexText` records 13 tokens (the reseeded overlap prefix plus
an 8-token sentence) yet is not a single oversized sentence, so the
claimed bound fails. -/
theorem create_chunks_claim_counterexample : ¬ claimC3At tokW 10 5 cexText := by
  unfold claimC3At
  decide

/-- C3, amended: every chunk's recorded token count is at most the
chunk size, except a chunk finalised directly from a freshly seeded
accumulator — a single sentence of the text, possibly preceded by the
injected overlap text — whose recomputed token count exceeds the
bound. -/
theorem create_chunks_token_bound (tok : String → Nat) (cs ov : Nat) (text : String)
    (c : PyChunk) (hc : c ∈ create_chunks tok cs ov text) :
    goodChunk tok cs ov (fun s => s ∈ split_into_sentences text) c := by
  unfold create_chunks at hc
  set P : String → Prop := fun s => s ∈ split_into_sentences text with hP
  set st := (split_into_sentences text).foldl (chunkStep tok cs ov)
    { chunks := [], current := "", curTokens := 0, chunkIndex := 0, startChar := 0 } with hst
  have hfold := chunkFold_inv tok cs ov P (split_into_sentences text)
    { chunks := [], current := "", curTokens := 0, chunkIndex := 0, startChar := 0 }
    (fun s hsmem => ⟨hsmem, split_into_sentences_ne_empty text s hsmem⟩)
    ⟨fun _ => rfl, Or.inl (Nat.zero_le cs)⟩
  rw [← hst] at hfold
  by_cases hflush : pyStrip st.current ≠ ""
  · rw [if_pos hflush] at hc
    rcases List.mem_append.mp hc with hc1 | hc1
    · rcases hfold.2 c hc1 with hin | hgood
      · exact absurd hin (List.not_mem_nil c)
      · exact hgood
    · have hceq := List.mem_singleton.mp hc1
      rcases hfold.1.2 with hle | ⟨hseed, htk⟩
      · left; rw [hceq]; exact hle
      · right
        exact ⟨st.current, hseed, by rw [hceq], by rw [hceq]; exact htk⟩
  · rw [if_neg hflush] at hc
    rcases hfold.2 c hc with hin | hgood
    · exact absurd hin (List.not_mem_nil c)
    · exact hgood

/-- The oversized second chunk of the counterexample run. -/
def cexChunk : PyChunk :=
  { id := "chunk_1", content := "a6 a7 a8 a9 a10 b1 b2 b3 b4 b5 b6 b7 b8",
    chunkIndex := 1, startChar := 15, endChar := 54, tokenCount := 13 }

/-- Witness for `create_chunks_token_bound` at a concrete run. -/
theorem create_chunks_token_bound_witness :
    cexChunk ∈ create_chunks tokW 10 5 cexText ∧
    goodChunk tokW 10 5 (fun s => s ∈ split_into_sentences cexText) cexChunk :=
  ⟨by decide, create_chunks_token_bound tokW 10 5 cexText cexChunk (by decide)⟩

/-! ## clean_text analysis (claim C6)

`clean_text` first replaces every whitespace run — newlines included —
by a single space, so the subsequent blank-line substitution never sees
a newline and is the identity on its input.
-/

/-- Every character emitted by the whitespace-collapsing pass is a
space or a non-whitespace character. -/
lemma mem_collapseWsAux : ∀ (b : Bool) (l : List Char) (c : Char),
    c ∈ collapseWsAux b l → c = ' ' ∨ pyWs c = false
  | _, [], c, hc => by simp [collapseWsAux] at hc
  | b, d :: ds, c, hc => by
    unfold collapseWsAux at hc
    by_cases hd : pyWs d
    · rw [if_pos hd] at hc
      cases b with
      | true =>
        rw [if_pos rfl] at hc
        exact mem_collapseWsAux true ds c hc
      | false =>
        rw [if_neg (by simp)] at hc
        rcases List.mem_cons.mp hc with h1 | h1
        · exact Or.inl h1
        · exact mem_collapseWsAux true ds c h1
    · rw [if_neg hd] at hc
      rcases List.mem_cons.mp hc with h1 | h1
      · right; rw [h1]; simpa using hd
      · exact mem_collapseWsAux false ds c h1

/-- No newline survives the whitespace-collapsing pass. -/
lemma no_nl_collapseWsAux (b : Bool) (l : List Char) :
    ∀ c ∈ collapseWsAux b l, c ≠ '\n' := by
  intro c hc hnl
  rcases mem_collapseWsAux b l c hc with h1 | h1
  · rw [hnl] at h1; exact absurd h1 (by decide)
  · rw [hnl] at h1; exact absurd h1 (by decide)

/-- The blank-line substitution is the identity on newline-free
input. -/
lemma subBlankFuel_no_nl : ∀ (fuel : Nat) (l : List Char),
    (∀ c ∈ l, c ≠ '\n') → subBlankFuel fuel l = l
  | 0, _, _ => rfl
  | _ + 1, [], _ => rfl
  | fuel + 1, c :: cs, h => by
    unfold subBlankFuel
    rw [if_neg (h c (List.mem_cons_self c cs))]
    rw [subBlankFuel_no_nl fuel cs (fun d hd => h d (List.mem_cons_of_mem c hd))]

/-- Stripping only removes characters. -/
lemma mem_pyStripList (l : List Char) (c : Char) (hc : c ∈ pyStripList l) : c ∈ l := by
  unfold pyStripList at hc
  rw [List.mem_reverse] at hc
  have h1 := (List.dropWhile_sublist pyWs).subset hc
  rw [List.mem_reverse] at h1
  exact (List.dropWhile_sublist pyWs).subset h1

/-- Collapse runs of at least two blank lines to a single blank
line. -/
def collapseBlankAux : Bool → List (List Char) → List (List Char)
  | _, [] => []
  | inRun, l :: ls =>
    if l.isEmpty then
      if inRun then collapseBlankAux true ls else [] :: collapseBlankAux true ls
    else l :: collapseBlankAux false ls

/-- Drop blank lines from both ends. -/
def dropBlankEnds (ls : List (List Char)) : List (List Char) :=
  ((ls.dropWhile List.isEmpty).reverse.dropWhile List.isEmpty).reverse

/-- The behaviour described by claim C6, as a reference function:
collapse whitespace runs within each line to a single space, collapse
runs of blank lines to a single blank line, and trim — so the
line structure of the input survives. -/
def claim_clean (s : String) : String :=
  let lines := (splitOnPred (fun c => c = '\n') s.data).map
    (fun l => pyStripList (collapseWsAux false l))
  String.mk (List.intercalate ['\n'] (dropBlankEnds (collapseBlankAux false lines)))

/-- C6, counterexample: on an input with a blank line, `clean_text`
returns a single line with the blank line collapsed to a space, while
the claimed behaviour keeps the blank line. -/
theorem clean_text_claim_counterexample :
    clean_text "a\n\nb" = "a b" ∧ claim_clean "a\n\nb" = "a\n\nb" ∧
    clean_text "a\n\nb" ≠ claim_clean "a\n\nb" := by
  refine ⟨by decide, by decide, by decide⟩

/-- C6, amended: `clean_text` collapses every whitespace run —
newlines included — to a single space and trims; the blank-line
substitution is a no-op because its input contains no newline, and no
newline appears in the result. -/
theorem clean_text_collapses_all_whitespace (s : String) :
    clean_text s = pyStrip (String.mk (collapseWsAux false s.data)) ∧
    ((clean_text s).data.all fun c => c != '\n') = true := by
  have hnl := no_nl_collapseWsAux false s.data
  have hsub : subBlankList (collapseWsAux false s.data) = collapseWsAux false s.data :=
    subBlankFuel_no_nl _ _ hnl
  constructor
  · unfold clean_text
    rw [hsub]
  · rw [List.all_eq_true]
    intro c hc
    rw [bne_iff_ne]
    unfold clean_text at hc
    rw [hsub] at hc
    exact hnl c (mem_pyStripList _ c hc)

/-! ## Overlap scenario (claim C8) -/

/-- Every chunk after the first begins with the nonempty trailing word
suffix of the previous chunk produced by `get_overlap_text`, that
suffix is a suffix of the previous chunk's content, and its token
count is at most the overlap budget. -/
def overlapChainOk (tok : String → Nat) (ov : Nat) : List PyChunk → Bool
  | [] => true
  | [_] => true
  | c1 :: c2 :: rest =>
    let ovt := get_overlap_text tok c1.content ov
    decide (tok ovt ≤ ov) && decide (ovt ≠ "") &&
      List.isPrefixOf (ovt ++ " ").data c2.content.data &&
      List.isSuffixOf ovt.data c1.content.data &&
      overlapChainOk tok ov (c2 :: rest)

/-- The 30-token input of the C8 scenario: three sentences of ten
one-token words each. -/
def text30 : String :=
  "w1 w2 w3 w4 w5 w6 w7 w8 w9 w10. x1 x2 x3 x4 x5 x6 x7 x8 x9 x10. y1 y2 y3 y4 y5 y6 y7 y8 y9 y10"

/-- C8: with chunk size 10 and overlap 5, the 30-token three-sentence
input yields three chunks, and each chunk after the first begins with
the at-most-5-token trailing word suffix of the previous chunk as
produced by the overlap-seeding step. -/
theorem overlap_scenario_holds :
    (create_chunks tokW 10 5 text30).length = 3 ∧
    overlapChainOk tokW 5 (create_chunks tokW 10 5 text30) = true := by
  refine ⟨by decide, by decide⟩

/-! ## Plain-text extraction totality (claim C9) -/

/-- C9: for every byte sequence and every behaviour of the external
utf-8, utf-16 and cp1252 codecs, `extract_txt_text` returns via one of
the listed encodings and the best-effort replacement branch never
runs, because latin-1 decodes every byte sequence. -/
theorem extract_txt_text_total_no_replacement
    (dU8 dU16 dCp : List (Fin 256) → Option String)
    (dRep : List (Fin 256) → String) (b : List (Fin 256)) :
    (extract_txt_text dU8 dU16 dCp dRep b).2 = false := by
  unfold extract_txt_text
  cases h8 : dU8 b with
  | some t => simp [try_decode, h8]
  | none =>
    cases h16 : dU16 b with
    | some t => simp [try_decode, h8, h16]
    | none => simp [try_decode, h8, h16, decodeLatin1]

/-! ## FAISS vector store (faiss_vector_store.py)

Vectors are rational lists; the sentence-transformers embedding and the
numpy row normalisation of `add_document`/`search` together form one
external function `embedn : String → Vec` (the normalisation step
itself is modelled exactly, over the reals, in the section for claim
C4).  The store state carries both the in-memory index/metadata and
the last persisted copies written by `save_index`. -/

/-- A stored vector. -/
abbrev Vec := List ℚ

/-- One metadata record of the FAISS store's sidecar. -/
structure MetaRecord where
  chunk_id : String
  document_id : String
  content : String
  chunk_index : Nat
  start_char : Int
  end_char : Int
  token_count : Nat
  embedding : Option Vec
deriving DecidableEq

/-- The state of a `FAISSVectorStore`: whether the faiss library was
importable, the index contents, the metadata keyed by insertion
counter (a Python dict in insertion order), the counter, and the
persisted artifacts. -/
structure FaissStore where
  faiss_available : Bool
  index_vecs : List Vec
  metadata : List (Nat × MetaRecord)
  chunk_counter : Nat
  saved_index : List Vec
  saved_metadata : List (Nat × MetaRecord)
deriving DecidableEq

/-- `FAISSVectorStore.save_index`: write the index artifact (when
faiss is available) and the metadata sidecar. -/
def fvs_save_index (s : FaissStore) : FaissStore :=
  { s with
      saved_index := if s.faiss_available then s.index_vecs else s.saved_index,
      saved_metadata := s.metadata }

/-- `FAISSVectorStore.add_document`: early-return on an empty chunk
list; otherwise embed the chunk texts, append the vectors to the index
(faiss mode), append one metadata record per chunk keyed by the
insertion counter — storing the embedding in the record only when
faiss is unavailable — bump the counter, and persist. -/
def fvs_add_document (embedn : String → Vec) (doc_id : String) (chunks : List PyChunk)
    (s : FaissStore) : FaissStore :=
  if chunks.isEmpty then s
  else
    let vecs := chunks.map fun c => embedn c.content
    let s1 := if s.faiss_available then { s with index_vecs := s.index_vecs ++ vecs } else s
    let newRecs := chunks.enum.map fun p =>
      (s.chunk_counter + p.1,
       ({ chunk_id := doc_id ++ "_" ++ p.2.id, document_id := doc_id,
          content := p.2.content, chunk_index := p.2.chunkIndex,
          start_char := p.2.startChar, end_char := p.2.endChar,
          token_count := p.2.tokenCount,
          embedding := if s.faiss_available then none else some (embedn p.2.content) }
          : MetaRecord))
    fvs_save_index
      { s1 with metadata := s1.metadata ++ newRecs,
                chunk_counter := s.chunk_counter + chunks.length }

/-- Python truthiness of a stored `embedding` value: `None` and the
empty list are falsy. -/
def truthyEmb : Option Vec → Bool
  | none => false
  | some v => !v.isEmpty

/-- `FAISSVectorStore.rebuild_index`: no-op without faiss; otherwise
keep only the metadata records with a truthy stored embedding, re-key
them contiguously from 0, rebuild the index from those embeddings, and
persist. -/
def fvs_rebuild_index (s : FaissStore) : FaissStore :=
  if !s.faiss_available then s
  else
    let kept := s.metadata.filter fun p => truthyEmb p.2.embedding
    let newMeta := kept.enum.map fun q => ((q.1 : Nat), q.2.2)
    let vecs := kept.map fun p => p.2.embedding.getD []
    fvs_save_index
      { s with index_vecs := vecs, metadata := newMeta, chunk_counter := kept.length }

/-- `FAISSVectorStore.delete_document`: drop the metadata records of
the document, then rebuild the index when anything was dropped. -/
def fvs_delete_document (doc_id : String) (s : FaissStore) : FaissStore :=
  let survivors := s.metadata.filter fun p => p.2.document_id ≠ doc_id
  let deletedAny := s.metadata.any fun p => p.2.document_id = doc_id
  let s1 := { s with metadata := survivors }
  if deletedAny then fvs_rebuild_index s1 else s1

/-- `FAISSVectorStore.clear_all`. -/
def fvs_clear_all (s : FaissStore) : FaissStore :=
  fvs_save_index
    { s with index_vecs := [], metadata := [], chunk_counter := 0 }

/-- The RAGChunk pydantic model, as returned by `search`. -/
structure RAGChunkL where
  id : String
  documentId : String
  content : String
  chunkIndex : Nat
  startChar : Int
  endChar : Int
  tokenCount : Nat
deriving DecidableEq

/-- Build a `RAGChunk` from a metadata record. -/
def toRAGChunk (m : MetaRecord) : RAGChunkL :=
  { id := m.chunk_id, documentId := m.document_id, content := m.content,
    chunkIndex := m.chunk_index, startChar := m.start_char, endChar := m.end_char,
    tokenCount := m.token_count }

/-- Inner product of two stored vectors. -/
def dotQ (a b : Vec) : ℚ :=
  (List.zipWith (fun x y => x * y) a b).sum

/-- Stable insertion into a score-sorted list, keeping earlier elements
first among equal scores.  `keep a b` decides that score `a` may stay
in front of score `b`. -/
def insertSorted {β : Type} (keep : ℚ → ℚ → Bool) (p : β × ℚ) :
    List (β × ℚ) → List (β × ℚ)
  | [] => [p]
  | q :: qs => if keep p.2 q.2 then p :: q :: qs else q :: insertSorted keep p qs

/-- Stable sort of scored items. -/
def sortPairs {β : Type} (keep : ℚ → ℚ → Bool) (l : List (β × ℚ)) : List (β × ℚ) :=
  l.foldr (insertSorted keep) []

/-- Descending by score (faiss result order, Python sorted with
reverse=True). -/
def sortScoreDesc {β : Type} (l : List (β × ℚ)) : List (β × ℚ) :=
  sortPairs (fun a b => decide (b ≤ a)) l

/-- Ascending by distance (chroma result order). -/
def sortScoreAsc {β : Type} (l : List (β × ℚ)) : List (β × ℚ) :=
  sortPairs (fun a b => decide (a ≤ b)) l

/-- The loop body of the faiss branch of `search`: keep a hit meeting
the threshold whose index resolves in the metadata sidecar. -/
def faissAccum (meta : List (Nat × MetaRecord)) (threshold : ℚ)
    (acc : List RAGChunkL × List ℚ) (h : Nat × ℚ) : List RAGChunkL × List ℚ :=
  if threshold ≤ h.2 then
    match List.lookup h.1 meta with
    | some m => (acc.1 ++ [toRAGChunk m], acc.2 ++ [h.2])
    | none => acc
  else acc

/-- The loop body of the fallback branch of `search`: score a record
that stores a truthy embedding and keep it when it meets the
threshold. -/
def fallbackAccum (qv : Vec) (threshold : ℚ) (acc : List (RAGChunkL × ℚ))
    (p : Nat × MetaRecord) : List (RAGChunkL × ℚ) :=
  match p.2.embedding with
  | some e =>
    if !e.isEmpty then
      if threshold ≤ dotQ qv e then acc ++ [(toRAGChunk p.2, dotQ qv e)] else acc
    else acc
  | none => acc

/-- `FAISSVectorStore.search`: embed and normalise the query, then
either query the faiss index for the top-k inner products and map the
surviving indices back through the metadata sidecar, or — without
faiss — linearly score every record that stores an embedding, filter
by the threshold, sort descending and truncate. -/
def fvs_search (embedn : String → Vec) (query : String) (max_results : Nat)
    (threshold : ℚ) (s : FaissStore) : List RAGChunkL × List ℚ :=
  let qv := embedn query
  if s.faiss_available ∧ ¬ s.index_vecs.isEmpty then
    let k := min max_results s.index_vecs.length
    let scored := s.index_vecs.enum.map fun p => ((p.1 : Nat), dotQ qv p.2)
    let hits := (sortScoreDesc scored).take k
    hits.foldl (faissAccum s.metadata threshold) ([], [])
  else if !s.faiss_available then
    let cands := s.metadata.foldl (fallbackAccum qv threshold) []
    let top := (sortScoreDesc cands).take max_results
    (top.map Prod.fst, top.map Prod.snd)
  else ([], [])

/-! ## ChromaDB vector store (vector_store.py)

The chroma collection is a list of entries; `generate_embeddings`
(sentence-transformers, no normalisation) is the parameter `embed`. -/

/-- One entry of the chroma collection. -/
structure ChromaEntry where
  id : String
  document : String
  embedding : Vec
  document_id : String
  chunk_index : Nat
  start_char : Int
  end_char : Int
  token_count : Nat
deriving DecidableEq

/-- The chroma collection state. -/
structure ChromaCollection where
  entries : List ChromaEntry
deriving DecidableEq

/-- `VectorStore.add_document`: early-return on an empty chunk list;
otherwise add one entry per chunk with the raw embedding returned by
`generate_embeddings` — no normalisation is applied. -/
def cvs_add_document (embed : String → Vec) (doc_id : String) (chunks : List PyChunk)
    (col : ChromaCollection) : ChromaCollection :=
  if chunks.isEmpty then col
  else
    { entries := col.entries ++ chunks.map fun c =>
        { id := doc_id ++ "_" ++ c.id, document := c.content,
          embedding := embed c.content, document_id := doc_id,
          chunk_index := c.chunkIndex, start_char := c.startChar,
          end_char := c.endChar, token_count := c.tokenCount } }

/-- `VectorStore.delete_document`: collect the ids of the entries
whose document_id matches, and delete those ids when there are any. -/
def cvs_delete_document (doc_id : String) (col : ChromaCollection) : ChromaCollection :=
  let ids := (col.entries.filter fun e => e.document_id = doc_id).map fun e => e.id
  if ids.isEmpty then col
  else { entries := col.entries.filter fun e => decide (e.id ∉ ids) }

/-- Squared Euclidean distance, chroma's default metric. -/
def sqDist (a b : Vec) : ℚ :=
  (List.zipWith (fun x y => (x - y) ^ 2) a b).sum

/-- Build a `RAGChunk` from a chroma entry. -/
def entryToRAGChunk (e : ChromaEntry) : RAGChunkL :=
  { id := e.id, documentId := e.document_id, content := e.document,
    chunkIndex := e.chunk_index, startChar := e.start_char, endChar := e.end_char,
    tokenCount := e.token_count }

/-- The loop body of chroma `search`: convert a distance to the
similarity `1 - distance` and keep the entry when it meets the
threshold. -/
def chromaAccum (threshold : ℚ) (acc : List RAGChunkL × List ℚ)
    (h : ChromaEntry × ℚ) : List RAGChunkL × List ℚ :=
  if threshold ≤ 1 - h.2 then
    (acc.1 ++ [entryToRAGChunk h.1], acc.2 ++ [1 - h.2])
  else acc

/-- `VectorStore.search`: embed the query, take the `max_results`
nearest entries by distance, convert each distance to a similarity
`1 - distance`, and keep the results meeting the threshold. -/
def cvs_search (embed : String → Vec) (query : String) (max_results : Nat)
    (threshold : ℚ) (col : ChromaCollection) : List RAGChunkL × List ℚ :=
  let qv := embed query
  let scored := col.entries.map fun e => (e, sqDist qv e.embedding)
  let hits := (sortScoreAsc scored).take max_results
  hits.foldl (chromaAccum threshold) ([], [])

/-! ## Deletion and search exclusion (claims C1, C7, C10) -/

/-- A successful association-list lookup returns a stored value. -/
lemma lookup_mem_values {α β : Type} [BEq α] [LawfulBEq α] :
    ∀ (l : List (α × β)) (k : α) (v : β), List.lookup k l = some v → ∃ p ∈ l, p.2 = v
  | [], k, v, h => by simp [List.lookup] at h
  | (a, b) :: rest, k, v, h => by
    rw [List.lookup] at h
    by_cases hk : k == a
    · rw [hk] at h
      simp only [] at h
      exact ⟨(a, b), List.mem_cons_self _ _, Option.some_inj.mp h⟩
    · rw [Bool.not_eq_true] at hk
      rw [hk] at h
      simp only [] at h
      obtain ⟨p, hp, hv⟩ := lookup_mem_values rest k v h
      exact ⟨p, List.mem_cons_of_mem _ hp, hv⟩

/-- The payload of an enumerated pair is a member of the list. -/
lemma mem_enumFrom_snd {α : Type} :
    ∀ (l : List α) (n : Nat) (q : Nat × α), q ∈ List.enumFrom n l → q.2 ∈ l
  | [], _, q, h => by simp [List.enumFrom] at h
  | a :: as, n, q, h => by
    rw [List.enumFrom] at h
    rcases List.mem_cons.mp h with h1 | h1
    · rw [h1]; exact List.mem_cons_self _ _
    · exact List.mem_cons_of_mem _ (mem_enumFrom_snd as (n + 1) q h1)

/-- The payload of an enumerated pair is a member of the list. -/
lemma mem_enum_snd {α : Type} (l : List α) (q : Nat × α) (h : q ∈ l.enum) : q.2 ∈ l :=
  mem_enumFrom_snd l 0 q h

/-- Every record in a rebuilt store's metadata was a record of the
store before the rebuild. -/
lemma fvs_rebuild_meta_values (s : FaissStore) (p : Nat × MetaRecord)
    (hp : p ∈ (fvs_rebuild_index s).metadata) : ∃ q ∈ s.metadata, q.2 = p.2 := by
  unfold fvs_rebuild_index at hp
  by_cases hf : s.faiss_available
  · rw [if_neg (by simp [hf])] at hp
    simp only [fvs_save_index] at hp
    obtain ⟨q, hq, hqp⟩ := List.mem_map.mp hp
    have hq2 := mem_enum_snd _ q hq
    have hmem := (List.mem_filter.mp hq2).1
    exact ⟨q.2, hmem, by rw [← hqp]⟩
  · rw [if_pos (by simp [hf])] at hp
    exact ⟨p, hp, rfl⟩

/-- After `delete_document`, no metadata record carries the deleted
document id. -/
lemma fvs_delete_no_doc (doc_id : String) (s : FaissStore) (p : Nat × MetaRecord)
    (hp : p ∈ (fvs_delete_document doc_id s).metadata) : p.2.document_id ≠ doc_id := by
  unfold fvs_delete_document at hp
  by_cases hd : s.metadata.any fun q => q.2.document_id = doc_id
  · rw [if_pos hd] at hp
    obtain ⟨q, hq, hqp⟩ := fvs_rebuild_meta_values _ p hp
    have := (List.mem_filter.mp hq).2
    rw [← hqp]
    simpa using this
  · rw [if_neg hd] at hp
    have := (List.mem_filter.mp hp).2
    simp at this
    exact this

/-- Insertion into a sorted list only adds the inserted element. -/
lemma mem_insertSorted {β : Type} (keep : ℚ → ℚ → Bool) (p : β × ℚ) :
    ∀ (l : List (β × ℚ)) (x : β × ℚ), x ∈ insertSorted keep p l → x = p ∨ x ∈ l
  | [], x, h => by simpa [insertSorted] using h
  | q :: qs, x, h => by
    rw [insertSorted] at h
    by_cases hk : keep p.2 q.2
    · rw [if_pos hk] at h
      rcases List.mem_cons.mp h with h1 | h1
      · exact Or.inl h1
      · exact Or.inr h1
    · rw [if_neg hk] at h
      rcases List.mem_cons.mp h with h1 | h1
      · exact Or.inr (by rw [h1]; exact List.mem_cons_self _ _)
      · rcases mem_insertSorted keep p qs x h1 with h2 | h2
        · exact Or.inl h2
        · exact Or.inr (List.mem_cons_of_mem _ h2)

/-- Sorting preserves membership. -/
lemma mem_sortPairs {β : Type} (keep : ℚ → ℚ → Bool) :
    ∀ (l : List (β × ℚ)) (x : β × ℚ), x ∈ sortPairs keep l → x ∈ l
  | [], x, h => by simp [sortPairs] at h
  | q :: qs, x, h => by
    rw [sortPairs, List.foldr] at h
    rcases mem_insertSorted keep q _ x h with h1 | h1
    · rw [h1]; exact List.mem_cons_self _ _
    · exact List.mem_cons_of_mem _ (mem_sortPairs keep qs x h1)

/-- Every chunk accumulated by the faiss search loop comes from the
metadata sidecar. -/
lemma faiss_fold_from_meta (meta : List (Nat × MetaRecord)) (th : ℚ) :
    ∀ (hits : List (Nat × ℚ)) (acc : List RAGChunkL × List ℚ),
    (∀ c ∈ acc.1, ∃ p ∈ meta, c = toRAGChunk p.2) →
    ∀ c ∈ (hits.foldl (faissAccum meta th) acc).1, ∃ p ∈ meta, c = toRAGChunk p.2
  | [], acc, hacc, c, hc => hacc c hc
  | h :: rest, acc, hacc, c, hc => by
    rw [List.foldl] at hc
    refine faiss_fold_from_meta meta th rest (faissAccum meta th acc h) ?_ c hc
    intro d hd
    unfold faissAccum at hd
    by_cases hth : th ≤ h.2
    · rw [if_pos hth] at hd
      cases hlook : List.lookup h.1 meta with
      | some m =>
        rw [hlook] at hd
        rcases List.mem_append.mp hd with h1 | h1
        · exact hacc d h1
        · obtain ⟨p, hp, hpv⟩ := lookup_mem_values meta h.1 m hlook
          exact ⟨p, hp, by rw [List.mem_singleton.mp h1, hpv]⟩
      | none =>
        rw [hlook] at hd
        exact hacc d hd
    · rw [if_neg hth] at hd
      exact hacc d hd

/-- Every result accumulated by the fallback search loop comes from
the metadata list. -/
lemma fallback_fold_from_meta (qv : Vec) (th : ℚ) (meta : List (Nat × MetaRecord)) :
    ∀ (l : List (Nat × MetaRecord)) (acc : List (RAGChunkL × ℚ)),
    (∀ p ∈ l, p ∈ meta) →
    (∀ x ∈ acc, ∃ p ∈ meta, x.1 = toRAGChunk p.2) →
    ∀ x ∈ l.foldl (fallbackAccum qv th) acc, ∃ p ∈ meta, x.1 = toRAGChunk p.2
  | [], _, _, hacc, x, hx => hacc x hx
  | p :: rest, acc, hsub, hacc, x, hx => by
    rw [List.foldl] at hx
    refine fallback_fold_from_meta qv th meta rest (fallbackAccum qv th acc p)
      (fun q hq => hsub q (List.mem_cons_of_mem _ hq)) ?_ x hx
    intro y hy
    unfold fallbackAccum at hy
    cases hemb : p.2.embedding with
    | none =>
      rw [hemb] at hy
      exact hacc y hy
    | some e =>
      rw [hemb] at hy
      dsimp only at hy
      by_cases hne : e.isEmpty
      · rw [if_neg (by simp [hne])] at hy
        exact hacc y hy
      · rw [if_pos (by simp [hne])] at hy
        by_cases hth : th ≤ dotQ qv e
        · rw [if_pos hth] at hy
          rcases List.mem_append.mp hy with h1 | h1
          · exact hacc y h1
          · refine ⟨p, hsub p (List.mem_cons_self _ _), ?_⟩
            rw [List.mem_singleton.mp h1]
        · rw [if_neg hth] at hy
          exact hacc y hy

/-- Every chunk returned by faiss-store `search` resolves to a record
of the store's metadata. -/
lemma fvs_search_chunks_from_meta (embedn : String → Vec) (query : String)
    (mr : Nat) (th : ℚ) (s : FaissStore) (ch : RAGChunkL)
    (hch : ch ∈ (fvs_search embedn query mr th s).1) :
    ∃ p ∈ s.metadata, ch = toRAGChunk p.2 := by
  unfold fvs_search at hch
  by_cases h1 : s.faiss_available ∧ ¬ s.index_vecs.isEmpty
  · rw [if_pos h1] at hch
    dsimp only at hch
    exact faiss_fold_from_meta s.metadata th _ ([], []) (by simp) ch hch
  · rw [if_neg h1] at hch
    by_cases h2 : s.faiss_available
    · rw [if_neg (by simp [h2])] at hch
      simp at hch
    · rw [if_pos (by simp [h2])] at hch
      dsimp only at hch
      obtain ⟨x, hx, hxe⟩ := List.mem_map.mp hch
      have hx1 : x ∈ sortScoreDesc (s.metadata.foldl (fallbackAccum (embedn query) th) []) :=
        List.take_subset _ _ hx
      have hx2 := mem_sortPairs _ _ x hx1
      obtain ⟨p, hp, hpe⟩ := fallback_fold_from_meta (embedn query) th s.metadata
        s.metadata [] (fun q hq => hq) (by simp) x hx2
      exact ⟨p, hp, by rw [← hxe, hpe]⟩

/-- After chroma `delete_document`, no surviving entry carries the
deleted document id. -/
lemma cvs_delete_no_doc (doc_id : String) (col : ChromaCollection) (e : ChromaEntry)
    (he : e ∈ (cvs_delete_document doc_id col).entries) : e.document_id ≠ doc_id := by
  unfold cvs_delete_document at he
  intro hdoc
  by_cases hids : ((col.entries.filter fun x => x.document_id = doc_id).map
      fun x => x.id).isEmpty
  · rw [if_pos hids] at he
    have hmem : e ∈ col.entries.filter fun x => decide (x.document_id = doc_id) :=
      List.mem_filter.mpr ⟨he, by simp [hdoc]⟩
    rw [List.isEmpty_iff, List.map_eq_nil_iff] at hids
    rw [hids] at hmem
    exact absurd hmem (List.not_mem_nil e)
  · rw [if_neg hids] at he
    have h2 := (List.mem_filter.mp he).2
    have h3 : e.id ∈ (col.entries.filter fun x => x.document_id = doc_id).map
        fun x => x.id :=
      List.mem_map.mpr ⟨e, List.mem_filter.mpr ⟨(List.mem_filter.mp he).1, by simp [hdoc]⟩, rfl⟩
    rw [decide_eq_true_eq] at h2
    exact h2 h3

/-- Every chunk accumulated by the chroma search loop comes from the
given entries. -/
lemma chroma_fold_from_entries (th : ℚ) (entries : List ChromaEntry) :
    ∀ (hits : List (ChromaEntry × ℚ)) (acc : List RAGChunkL × List ℚ),
    (∀ h ∈ hits, h.1 ∈ entries) →
    (∀ c ∈ acc.1, ∃ e ∈ entries, c = entryToRAGChunk e) →
    ∀ c ∈ (hits.foldl (chromaAccum th) acc).1, ∃ e ∈ entries, c = entryToRAGChunk e
  | [], _, _, hacc, c, hc => hacc c hc
  | h :: rest, acc, hhits, hacc, c, hc => by
    rw [List.foldl] at hc
    refine chroma_fold_from_entries th entries rest (chromaAccum th acc h)
      (fun q hq => hhits q (List.mem_cons_of_mem _ hq)) ?_ c hc
    intro y hy
    unfold chromaAccum at hy
    by_cases hth : th ≤ 1 - h.2
    · rw [if_pos hth] at hy
      rcases List.mem_append.mp hy with h1 | h1
      · exact hacc y h1
      · exact ⟨h.1, hhits h (List.mem_cons_self _ _), List.mem_singleton.mp h1⟩
    · rw [if_neg hth] at hy
      exact hacc y hy

/-- Every chunk returned by chroma `search` comes from a stored
entry. -/
lemma cvs_search_chunks_from_entries (embed : String → Vec) (query : String)
    (mr : Nat) (th : ℚ) (col : ChromaCollection) (ch : RAGChunkL)
    (hch : ch ∈ (cvs_search embed query mr th col).1) :
    ∃ e ∈ col.entries, ch = entryToRAGChunk e := by
  unfold cvs_search at hch
  dsimp only at hch
  refine chroma_fold_from_entries th col.entries _ ([], []) ?_ (by simp) ch hch
  intro h hh
  have h1 : h ∈ sortScoreAsc (col.entries.map fun e => (e, sqDist (embed query) e.embedding)) :=
    List.take_subset _ _ hh
  have h2 := mem_sortPairs _ _ h h1
  obtain ⟨e, he, hee⟩ := List.mem_map.mp h2
  have he1 : h.1 = e := by rw [← hee]
  rw [he1]
  exact he

/-- C7: in both backends, after `delete_document(docId)` no search —
for any query, any result limit and any similarity threshold — returns
a chunk whose documentId equals the deleted id. -/
theorem search_after_delete_excludes_document
    (embedn embed : String → Vec) (s : FaissStore) (col : ChromaCollection)
    (doc_id query : String) (max_results : Nat) (threshold : ℚ) :
    ((fvs_search embedn query max_results threshold
        (fvs_delete_document doc_id s)).1.all fun ch => ch.documentId != doc_id) = true ∧
    ((cvs_search embed query max_results threshold
        (cvs_delete_document doc_id col)).1.all fun ch => ch.documentId != doc_id) = true := by
  constructor
  · rw [List.all_eq_true]
    intro ch hch
    obtain ⟨p, hp, hpe⟩ := fvs_search_chunks_from_meta embedn query max_results threshold
      (fvs_delete_document doc_id s) ch hch
    have hne := fvs_delete_no_doc doc_id s p hp
    rw [hpe]
    simpa [toRAGChunk] using hne
  · rw [List.all_eq_true]
    intro ch hch
    obtain ⟨e, he, hee⟩ := cvs_search_chunks_from_entries embed query max_results threshold
      (cvs_delete_document doc_id col) ch hch
    have hne := cvs_delete_no_doc doc_id col e he
    rw [hee]
    simpa [entryToRAGChunk] using hne

/-- A one-chunk document "A". -/
def chunkA : PyChunk :=
  { id := "chunk_0", content := "alpha", chunkIndex := 0, startChar := 0, endChar := 5,
    tokenCount := 1 }

/-- A one-chunk document "B". -/
def chunkB : PyChunk :=
  { id := "chunk_0", content := "beta", chunkIndex := 0, startChar := 0, endChar := 4,
    tokenCount := 1 }

/-- A concrete embedding for the failing-input run. -/
def embedOne : String → Vec := fun _ => [1]

/-- A freshly initialised store with faiss available. -/
def emptyFaissStore : FaissStore :=
  { faiss_available := true, index_vecs := [], metadata := [], chunk_counter := 0,
    saved_index := [], saved_metadata := [] }

/-- The store after adding documents "A" and "B", one chunk each. -/
def storeAB : FaissStore :=
  fvs_add_document embedOne "B" [chunkB] (fvs_add_document embedOne "A" [chunkA] emptyFaissStore)

/-- C1: with faiss available, `add_document` stores `embedding = None`
in every metadata record, so the rebuild triggered by
`delete_document("A")` — which keeps only records with a truthy stored
embedding — drops document "B"'s surviving record and vector as well:
the metadata, the rebuilt index and the persisted sidecar all end up
empty instead of retaining "B". -/
theorem fvs_delete_document_drops_survivors :
    (storeAB.metadata.map fun p => p.2.document_id) = ["A", "B"] ∧
    storeAB.index_vecs.length = 2 ∧
    (fvs_delete_document "A" storeAB).metadata = [] ∧
    (fvs_delete_document "A" storeAB).index_vecs = [] ∧
    (fvs_delete_document "A" storeAB).saved_metadata = [] := by
  refine ⟨by decide, by decide, by decide, by decide, by decide⟩

/-- C10: `add_document` with an empty chunk list returns before doing
any work in both backends: the index, metadata, counter and persisted
artifacts are unchanged. -/
theorem add_document_empty_chunks_noop (embedn embed : String → Vec) (doc_id : String)
    (s : FaissStore) (col : ChromaCollection) :
    fvs_add_document embedn doc_id [] s = s ∧ cvs_add_document embed doc_id [] col = col := by
  constructor
  · simp [fvs_add_document]
  · simp [cvs_add_document]

/-! ## RAGServer document lifecycle (rag_server.py, claims C2 and C5)

The document registry is the JSON-persisted list of records; only the
fields the claims concern (id, processingStatus, content, plus the
upload response metadata) are carried.  External effects of the
background task are parameters: whether `file.read()` succeeds, the
processor outcome, and whether `VectorStore.add_document` succeeds.
-/

/-- A document-registry record, restricted to the fields the status
claims concern. -/
structure ProcDoc where
  id : String
  status : String
  content : String
deriving DecidableEq

/-- `RAGServer.update_document_status`: set the status of the first
matching record and persist the list. -/
def update_document_status (doc_id status : String) : List ProcDoc → List ProcDoc
  | [] => []
  | d :: ds =>
    if d.id = doc_id then { d with status := status } :: ds
    else d :: update_document_status doc_id status ds

/-- The write-back loop of `process_document_async`: fill the first
matching record with the processed content and set its status to
completed, then persist. -/
def mark_completed (doc_id content : String) : List ProcDoc → List ProcDoc
  | [] => []
  | d :: ds =>
    if d.id = doc_id then { d with status := "completed", content := content } :: ds
    else d :: mark_completed doc_id content ds

/-- The external outcomes of one background-processing run. -/
structure ProcEnv where
  readOk : Bool
  processed : Option String
  addOk : Bool

/-- `RAGServer.process_document_async`: set status processing; read
the file and run the processor; on success write back content and
status completed, then call `add_document`; any failure lands in the
handler that sets status failed.  The second component is the sequence
of status values persisted for the document, in order. -/
def process_document_async (doc_id : String) (env : ProcEnv) (docs : List ProcDoc) :
    List ProcDoc × List String :=
  let d1 := update_document_status doc_id "processing" docs
  if env.readOk = false then
    (update_document_status doc_id "failed" d1, ["processing", "failed"])
  else
    match env.processed with
    | none => (update_document_status doc_id "failed" d1, ["processing", "failed"])
    | some content =>
      let d2 := mark_completed doc_id content d1
      if env.addOk then (d2, ["processing", "completed"])
      else (update_document_status doc_id "failed" d2, ["processing", "completed", "failed"])

/-- C2: the background task persists status completed before calling
`add_document`; when `add_document` then fails, the already-terminal
completed status is overwritten with failed, so completed is not set
only after the vector-store insertion succeeded and a terminal status
is not final. -/
theorem process_document_async_completed_before_add :
    (process_document_async "d1" { readOk := true, processed := some "text", addOk := false }
      [{ id := "d1", status := "pending", content := "" }]).2 =
      ["processing", "completed", "failed"] ∧
    (process_document_async "d1" { readOk := true, processed := some "text", addOk := false }
      [{ id := "d1", status := "pending", content := "" }]).1 =
      [{ id := "d1", status := "failed", content := "text" }] := by
  refine ⟨by decide, by decide⟩

/-- Index of the last occurrence of a character. -/
def lastIdxOf (c : Char) : List Char → Option Nat
  | [] => none
  | d :: ds =>
    match lastIdxOf c ds with
    | some k => some (k + 1)
    | none => if d = c then some 0 else none

/-- The extension component of `os.path.splitext` (posix separator):
everything from the last dot of the basename, unless every character
between the separator and that dot is itself a dot. -/
def splitext_ext (p : String) : String :=
  let cs := p.data
  let sepIdx : Int :=
    match lastIdxOf '/' cs with
    | none => -1
    | some i => (i : Int)
  match lastIdxOf '.' cs with
  | none => ""
  | some d =>
    if sepIdx < (d : Int) ∧
        ((cs.take d).drop (sepIdx + 1).toNat).any (fun ch => ch ≠ '.') then
      String.mk (cs.drop d)
    else ""

/-- The outcome of the upload endpoint: a success payload or an HTTP
exception with its status code. -/
inductive UploadResult where
  | ok (documentId fileName status message : String)
  | httpError (code : Nat) (detail : String)
deriving DecidableEq

/-- The registry record created at upload time. -/
structure RegDoc where
  id : String
  fileName : String
  fileType : String
  status : String
deriving DecidableEq

/-- Server state: the persisted document registry and the scheduled
background tasks. -/
structure ServerState where
  documents : List RegDoc
  scheduled : List String
deriving DecidableEq

/-- The allowed upload extensions. -/
def allowed_types : List String := [".pdf", ".docx", ".txt", ".xlsx", ".xls"]

/-- Python str.lower, character-wise. -/
def pyLower (s : String) : String := String.mk (s.data.map Char.toLower)

/-- The body of the upload endpoint's try block: validate the
extension — raising a 400 HTTPException for an unsupported one before
any record is saved or task scheduled — otherwise create the pending
document record, schedule background processing, and answer.  `newId`
stands for the generated uuid4. -/
def upload_document_inner (newId filename : String) (st : ServerState) :
    UploadResult × ServerState :=
  let ext := pyLower (splitext_ext filename)
  if ext ∉ allowed_types then
    (UploadResult.httpError 400 ("Unsupported file type: " ++ ext), st)
  else
    let doc : RegDoc :=
      { id := newId, fileName := filename, fileType := ext.drop 1, status := "pending" }
    (UploadResult.ok newId filename "processing"
        "Document uploaded successfully and is being processed",
     { documents := st.documents ++ [doc], scheduled := st.scheduled ++ [newId] })

/-- `str` of a starlette HTTPException: code, colon, detail. -/
def http_exception_str (code : Nat) (detail : String) : String :=
  toString code ++ ": " ++ detail

/-- The upload endpoint: its catch-all `except Exception` handler
intercepts any raised HTTPException — including the 400 for an
unsupported extension — and re-raises it as a 500 whose detail is the
string form of the caught exception. -/
def upload_document (newId filename : String) (st : ServerState) :
    UploadResult × ServerState :=
  let r := upload_document_inner newId filename st
  match r.1 with
  | UploadResult.httpError code detail =>
    (UploadResult.httpError 500 (http_exception_str code detail), r.2)
  | _ => r

/-- The claim of C5 at one input: the upload is rejected with a
client-error status code (4xx) and the state is unchanged. -/
def claimC5At (newId filename : String) (st : ServerState) : Prop :=
  ∃ code detail, 400 ≤ code ∧ code < 500 ∧
    upload_document newId filename st = (UploadResult.httpError code detail, st)

/-- A server with no documents and no scheduled tasks. -/
def emptyServer : ServerState := { documents := [], scheduled := [] }

/-- C5, counterexample: uploading `data.csv` is rejected with status
code 500 — the 400 raised for the unsupported extension is swallowed
by the endpoint's own catch-all handler — so the response is not a
client error. -/
theorem upload_document_claim_counterexample : ¬ claimC5At "id0" "data.csv" emptyServer := by
  intro hcl
  obtain ⟨code, detail, h1, h2, h3⟩ := hcl
  have hres : upload_document "id0" "data.csv" emptyServer =
      (UploadResult.httpError 500 "400: Unsupported file type: .csv", emptyServer) := by decide
  rw [hres] at h3
  have hcode : code = 500 := by
    have := congrArg Prod.fst h3
    simp only [] at this
    cases this
    rfl
  omega

/-- C5, amended: an upload whose lowered extension is not allowed is
rejected synchronously with a 500 server-error response carrying the
wrapped 400 detail; no document record is created and no background
task is scheduled. -/
theorem upload_document_rejects_unsupported (newId filename : String) (st : ServerState)
    (h : pyLower (splitext_ext filename) ∉ allowed_types) :
    upload_document newId filename st =
      (UploadResult.httpError 500
        ("400: Unsupported file type: " ++ pyLower (splitext_ext filename)), st) := by
  unfold upload_document upload_document_inner
  rw [if_pos h]
  rfl

/-- Witness for `upload_document_rejects_unsupported` at `data.csv`. -/
theorem upload_document_rejects_unsupported_witness :
    pyLower (splitext_ext "data.csv") ∉ allowed_types ∧
    upload_document "id0" "data.csv" emptyServer =
      (UploadResult.httpError 500
        ("400: Unsupported file type: " ++ pyLower (splitext_ext "data.csv")), emptyServer) :=
  ⟨by decide, upload_document_rejects_unsupported "id0" "data.csv" emptyServer (by decide)⟩

/-! ## Embedding normalisation (claim C4)

The numpy row normalisation of `FAISSVectorStore.add_document` (lines
114-119) modelled exactly over the reals: each embedding row is
divided by its own Euclidean norm and the resulting rows are appended
to the index.  The raw sentence-transformers embedding is the
parameter `embed`. -/

/-- Euclidean norm of a vector. -/
noncomputable def l2norm (v : List ℝ) : ℝ :=
  Real.sqrt ((v.map fun x => x ^ 2).sum)

/-- numpy `embeddings / norm(embeddings, axis=1, keepdims=True)` for
one row. -/
noncomputable def normalizeV (v : List ℝ) : List ℝ :=
  v.map fun x => x / l2norm v

/-- The index contents after the vector pipeline of
`FAISSVectorStore.add_document`: embed the chunk texts in one batch,
normalise each row, append to the index. -/
noncomputable def faiss_index_after_add (embed : String → List ℝ) (chunks : List PyChunk)
    (idx : List (List ℝ)) : List (List ℝ) :=
  if chunks.isEmpty then idx
  else idx ++ ((chunks.map fun c => c.content).map embed).map normalizeV

/-- Inner product over the reals. -/
def dotR (a b : List ℝ) : ℝ :=
  (List.zipWith (fun x y => x * y) a b).sum

/-- A sum of squares is nonnegative. -/
lemma sum_sq_nonneg (v : List ℝ) : 0 ≤ (v.map fun x => x ^ 2).sum :=
  List.sum_nonneg (by intro x hx; obtain ⟨y, _, hy⟩ := List.mem_map.mp hx; rw [← hy]; positivity)

/-- Scaling a vector scales its sum of squares. -/
lemma sum_map_sq_div : ∀ (v : List ℝ) (c : ℝ),
    ((v.map fun x => x / c).map fun x => x ^ 2).sum = (v.map fun x => x ^ 2).sum / c ^ 2
  | [], c => by simp
  | x :: xs, c => by
    simp only [List.map_cons, List.sum_cons]
    rw [sum_map_sq_div xs c, div_pow, div_add_div_same]

/-- A vector divided by its nonzero norm has unit norm. -/
lemma l2norm_normalize (v : List ℝ) (hn : l2norm v ≠ 0) : l2norm (normalizeV v) = 1 := by
  have hS : 0 ≤ (v.map fun x => x ^ 2).sum := sum_sq_nonneg v
  have hS0 : (v.map fun x => x ^ 2).sum ≠ 0 := by
    intro h0
    apply hn
    unfold l2norm
    rw [h0, Real.sqrt_zero]
  unfold normalizeV l2norm
  rw [sum_map_sq_div]
  rw [show Real.sqrt ((v.map fun x => x ^ 2).sum) ^ 2 = (v.map fun x => x ^ 2).sum from
    Real.sq_sqrt hS]
  rw [div_self hS0, Real.sqrt_one]

/-- Inner products of scaled vectors. -/
lemma zipWith_mul_div_sum : ∀ (a b : List ℝ) (ca cb : ℝ),
    (List.zipWith (fun x y => x * y) (a.map fun x => x / ca) (b.map fun y => y / cb)).sum =
      (List.zipWith (fun x y => x * y) a b).sum / (ca * cb)
  | [], b, ca, cb => by simp
  | a :: as, [], ca, cb => by simp
  | a :: as, b :: bs, ca, cb => by
    simp only [List.map_cons, List.zipWith_cons_cons, List.sum_cons]
    rw [zipWith_mul_div_sum as bs ca cb, div_mul_div_comm, div_add_div_same]

/-- The inner product of two normalised vectors is the cosine
similarity of the originals. -/
lemma dot_normalized_eq_cosine (a b : List ℝ) :
    dotR (normalizeV a) (normalizeV b) = dotR a b / (l2norm a * l2norm b) := by
  unfold dotR normalizeV
  exact zipWith_mul_div_sum a b (l2norm a) (l2norm b)

/-- C4, amended for the FAISS backend: for a non-empty chunk list,
every vector inserted into the index is the L2-normalised embedding of
the corresponding chunk text; each such vector has unit Euclidean norm
whenever the raw embedding is nonzero, and inner products of
normalised vectors equal cosine similarity.  (The ChromaDB backend, by
contrast, inserts raw embeddings — see the counterexample.) -/
theorem fvs_add_document_normalizes (embed : String → List ℝ) (chunks : List PyChunk)
    (idx : List (List ℝ)) (h : chunks ≠ []) :
    faiss_index_after_add embed chunks idx =
      idx ++ chunks.map (fun c => normalizeV (embed c.content)) ∧
    (∀ c ∈ chunks, l2norm (embed c.content) ≠ 0 → l2norm (normalizeV (embed c.content)) = 1) ∧
    (∀ a b : List ℝ, dotR (normalizeV a) (normalizeV b) = dotR a b / (l2norm a * l2norm b)) := by
  refine ⟨?_, fun c _ hc => l2norm_normalize _ hc, dot_normalized_eq_cosine⟩
  unfold faiss_index_after_add
  rw [if_neg (by simp [h])]
  simp [List.map_map, Function.comp]

/-- A concrete raw embedding of norm 5. -/
def embed34 : String → List ℝ := fun _ => [3, 4]

/-- A single concrete chunk. -/
def chunkT : PyChunk :=
  { id := "chunk_0", content := "t", chunkIndex := 0, startChar := 0, endChar := 1,
    tokenCount := 1 }

/-- The norm of the concrete embedding. -/
lemma l2norm_34 : l2norm [(3 : ℝ), 4] = 5 := by
  unfold l2norm
  norm_num
  rw [show (25 : ℝ) = 5 ^ 2 by norm_num]
  exact Real.sqrt_sq (by norm_num)

/-- Witness for `fvs_add_document_normalizes` at a concrete chunk and
embedding. -/
theorem fvs_add_document_normalizes_witness :
    ([chunkT] : List PyChunk) ≠ [] ∧ chunkT ∈ [chunkT] ∧
    l2norm (embed34 chunkT.content) ≠ 0 ∧
    l2norm (normalizeV (embed34 chunkT.content)) = 1 :=
  ⟨by simp, List.mem_singleton.mpr rfl,
   by rw [show embed34 chunkT.content = [(3 : ℝ), 4] from rfl, l2norm_34]; norm_num,
   (fvs_add_document_normalizes embed34 [chunkT] [] (by simp)).2.1 chunkT
     (List.mem_singleton.mpr rfl)
     (by rw [show embed34 chunkT.content = [(3 : ℝ), 4] from rfl, l2norm_34]; norm_num)⟩

/-- Squared Euclidean norm over the rationals, for evaluating the
stored vectors of the executable chroma model. -/
def sqNormQ (v : Vec) : ℚ := (v.map fun x => x ^ 2).sum

/-- The same embedding, over the rationals. -/
def embedQ34 : String → Vec := fun _ => [3, 4]

/-- An empty chroma collection. -/
def emptyChroma : ChromaCollection := { entries := [] }

/-- C4, counterexample: the ChromaDB backend's `add_document` inserts
the raw embedding `[3, 4]` — whose squared norm is 25, not 1, and
which differs from its L2-normalisation — so the inserted vector is
not the L2-normalised embedding of the chunk text. -/
theorem cvs_add_document_not_normalized :
    ((cvs_add_document embedQ34 "A" [chunkT] emptyChroma).entries.map fun e => e.embedding) =
      [[3, 4]] ∧
    sqNormQ [3, 4] = 25 ∧ sqNormQ [3, 4] ≠ 1 ∧
    normalizeV [(3 : ℝ), 4] ≠ [3, 4] := by
  refine ⟨by decide, by norm_num [sqNormQ], by norm_num [sqNormQ], ?_⟩
  intro hcon
  rw [show normalizeV [(3 : ℝ), 4] = [3 / 5, 4 / 5] from by
    simp [normalizeV, l2norm_34]] at hcon
  have h3 := congrArg (fun l => l.headI) hcon
  simp at h3
  norm_num at h3

end RagSpec
